import Mathlib

/-!
# Verification of the PDF chunking and batching core

Shallow embedding of `PDFPreprocessor.chunk_text`
(`LLMJudges_server/src/py_libs/parsing_helper/pdf_preprocessor.py`) and of the
batching pipeline `preprocess_pdf_file` / `_batched_chunks`
(`LLMJudges_server/src/py_libs/parsing_helper/pdf_file_preprocess.py`).

Python strings are modelled as `List Char`; Python `str.rfind(sub, start, end)`
(which returns -1 when absent) is modelled as an `Option Nat`; the splitting
`while` loop is modelled with explicit fuel (the loop is proved to need at most
`text.length` iterations, see the termination theorem).
-/

set_option maxHeartbeats 1000000

abbrev Str := List Char

/-- Characters stripped by Python `str.strip()` (the ASCII whitespace set). -/
def pyIsSpace (c : Char) : Bool :=
  c == ' ' || c == '\t' || c == '\n' || c == '\r' || c == '\x0b' || c == '\x0c'

/-- Python `s.strip()`: remove leading and trailing whitespace. -/
def pyStrip (s : Str) : Str :=
  ((s.dropWhile pyIsSpace).reverse.dropWhile pyIsSpace).reverse

/-- All indices (offset by `i`) at which `pat` occurs in `s`;
occurrences must fit entirely inside `s`, as in Python substring search. -/
def subFindPositions (pat : Str) : Str → Nat → List Nat
  | [], _ => []
  | c :: rest, i =>
    (if pat.isPrefixOf (c :: rest) then [i] else []) ++ subFindPositions pat rest (i + 1)

/-- Python `s.rfind(pat, a, b)`: highest index `j` with `a ≤ j`,
`j + pat.length ≤ b` and `pat` occurring at `j`; `none` when absent
(Python returns `-1`, only ever compared with `> current_pos` in the source). -/
def pyRfind (s pat : Str) (a b : Nat) : Option Nat :=
  ((subFindPositions pat ((s.drop a).take (b - a)) 0).getLast?).map (fun j => j + a)

/-- Python slice `s[a:b]`. -/
def sliceStr (s : Str) (a b : Nat) : Str := (s.drop a).take (b - a)

def parPat : Str := ['\n', '\n']

def nlPat : Str := ['\n']

def dotPat : Str := ['.', ' ']

def spacePat : Str := [' ']

/-- The two constructor arguments of `PDFPreprocessor.__init__`. -/
structure ChunkerConfig where
  maxChunkSize : Nat
  overlapSize : Nat
deriving Repr, DecidableEq

/-- The break-point searching `if`/`elif` chain of `chunk_text` (lines 139-159):
try paragraph break, then newline, then ". ", then space, each searched
backward in `[pos, ce)` and accepted only strictly after `pos`. -/
def adjustEnd (text : Str) (pos ce : Nat) : Nat :=
  match (pyRfind text parPat pos ce).filter (fun j => decide (pos < j)) with
  | some j => j + 2
  | none =>
    match (pyRfind text nlPat pos ce).filter (fun j => decide (pos < j)) with
    | some j => j + 1
    | none =>
      match (pyRfind text dotPat pos ce).filter (fun j => decide (pos < j)) with
      | some j => j + 2
      | none =>
        match (pyRfind text spacePat pos ce).filter (fun j => decide (pos < j)) with
        | some j => j + 1
        | none => ce

/-- `chunk_end` after one iteration of the splitting loop:
`min(current_pos + max_chunk_size, text_length)` adjusted to a break point
when not at the end of the text. -/
def chunkEndAt (cfg : ChunkerConfig) (text : Str) (pos : Nat) : Nat :=
  let ce := min (pos + cfg.maxChunkSize) text.length
  if ce < text.length then adjustEnd text pos ce else ce

/-- The advance rule at the end of each loop iteration (lines 166-169):
rewind by `overlap_size` when the consumed span exceeds `overlap_size * 3`. -/
def nextPosition (cfg : ChunkerConfig) (text : Str) (pos : Nat) : Nat :=
  let ce := chunkEndAt cfg text pos
  if cfg.overlapSize * 3 < ce - pos then ce - cfg.overlapSize else ce

/-- The splitting `while` loop (lines 134-169), with explicit fuel.
Each iteration extracts `strip(combined_text[current_pos:chunk_end])`,
keeps it when non-empty, and advances. -/
def chunkLoop (cfg : ChunkerConfig) (text : Str) : Nat → Nat → List Str
  | 0, _ => []
  | fuel + 1, pos =>
    if pos < text.length then
      let c := pyStrip (sliceStr text pos (chunkEndAt cfg text pos))
      let rest := chunkLoop cfg text fuel (nextPosition cfg text pos)
      if c = [] then rest else c :: rest
    else []

def markerPre : Str := ("--- PAGE BREAK [").data

def markerSuf : Str := ("] ---").data

/-- The page separator `"\n\n--- PAGE BREAK [{i}] ---\n\n"` (line 111). -/
def pageBreakMarker (i : Nat) : Str :=
  ('\n' :: '\n' :: markerPre) ++ Nat.toDigits 10 i ++ (markerSuf ++ ['\n', '\n'])

/-- The page-combining loop (lines 108-112): a marker carrying the index of
the following page is inserted before every page except the first. -/
def combineParts : Nat → List Str → List Str
  | _, [] => []
  | i, p :: rest =>
    (if 0 < i then [pageBreakMarker i] else []) ++ (p :: combineParts (i + 1) rest)

def combinedText (pages : List Str) : Str := (combineParts 0 pages).flatten

/-- Python `int` on a digit string. -/
def digitsToNat (ds : Str) : Nat := ds.foldl (fun a c => 10 * a + (c.toNat - 48)) 0

/-- One attempted match of the regex `--- PAGE BREAK \[(\d+)\] ---` at the head
of `s`, returning the captured number. -/
def matchMarkerAt (s : Str) : Option Nat :=
  if markerPre.isPrefixOf s then
    let t := s.drop markerPre.length
    let ds := t.takeWhile Char.isDigit
    if !ds.isEmpty && markerSuf.isPrefixOf (t.drop ds.length) then some (digitsToNat ds)
    else none
  else none

/-- `re.search` of the page-break pattern: value of the leftmost match. -/
def searchMarker : Str → Option Nat
  | [] => none
  | c :: rest =>
    match matchMarkerAt (c :: rest) with
    | some v => some v
    | none => searchMarker rest

/-- One chunk dictionary as produced by `chunk_text`. The single-chunk path
additionally sets `page_range`; the splitting path does not. -/
structure ChunkDict where
  chunk_index : Nat
  chunk_text : Str
  total_chunks : Nat
  char_count : Nat
  is_last : Bool
  page_index : Nat
  page_range : Option (Nat × Nat)
deriving Repr, DecidableEq

/-- The metadata loop of `chunk_text` (lines 171-194): running page index
starts at 1 and is replaced by `marker_value + 1` whenever a chunk's text
matches the page-break pattern. -/
def buildDictsGo (total : Nat) : Nat → Nat → List Str → List ChunkDict
  | _, _, [] => []
  | idx, acc, c :: rest =>
    let p := match searchMarker c with
      | some v => v + 1
      | none => acc
    { chunk_index := idx, chunk_text := c, total_chunks := total,
      char_count := c.length, is_last := idx == total - 1,
      page_index := p, page_range := none } :: buildDictsGo total (idx + 1) p rest

/-- `PDFPreprocessor.chunk_text` (lines 84-200). -/
def chunk_text (cfg : ChunkerConfig) (page_texts : List Str) : List ChunkDict :=
  if page_texts.isEmpty || page_texts.all List.isEmpty then []
  else
    let combined := combinedText page_texts
    if combined.length ≤ cfg.maxChunkSize then
      [{ chunk_index := 0, chunk_text := combined, total_chunks := 1,
         char_count := combined.length, is_last := true, page_index := 0,
         page_range := some (0, page_texts.length - 1) }]
    else
      let chunks := chunkLoop cfg combined combined.length 0
      buildDictsGo chunks.length 0 1 chunks

/-! ## The batching pipeline (`pdf_file_preprocess.py`) -/

def DEFAULT_BATCH_SIZE : Int := 150

def MAX_CHUNK_SIZE : Nat := 1500

def CHUNK_OVERLAP : Nat := 200

/-- `preprocess_pdf` constructs `PDFPreprocessor(max_chunk_size)` with the
default `overlap_size = CHUNK_OVERLAP`; the pipeline always uses the defaults. -/
def defaultChunkerConfig : ChunkerConfig :=
  { maxChunkSize := MAX_CHUNK_SIZE, overlapSize := CHUNK_OVERLAP }

/-- Slices of size `b + 1` with explicit fuel (structural recursion so the
kernel can evaluate it; `fuel ≥ l.length` always suffices). -/
def slicesFuel (b : Nat) : Nat → List α → List (List α)
  | _, [] => []
  | 0, _ :: _ => []
  | n + 1, x :: xs => (x :: xs.take b) :: slicesFuel b n (xs.drop b)

/-- Slices of size `b + 1`: `l[0:b+1], l[b+1:2(b+1)], ...`, mirroring the
`range(0, total_chunks, batch_size)` loop of `_batched_chunks`. -/
def slicesAux (b : Nat) (l : List α) : List (List α) := slicesFuel b l.length l

def slicesOf (b : Nat) (l : List α) : List (List α) :=
  match b with
  | 0 => []
  | bb + 1 => slicesAux bb l

def enumerateFrom (i : Nat) : List α → List (Nat × α)
  | [] => []
  | x :: xs => (i, x) :: enumerateFrom (i + 1) xs

/-- `_batched_chunks` (lines 24-36): a generator that raises `ValueError`
before yielding anything when `batch_size <= 0`, and otherwise yields the
contiguous slices paired with their batch index. -/
def batchedChunks (chunks : List ChunkDict) (batch_size : Int) :
    Except String (List (Nat × List ChunkDict)) :=
  if batch_size ≤ 0 then Except.error "batch_size must be greater than zero"
  else Except.ok (enumerateFrom 0 (slicesOf batch_size.toNat chunks))

/-- The reduced per-chunk view inside a batch payload (lines 73-83). -/
structure BatchChunkView where
  chunk_index : Nat
  chunk_text : Str
  total_chunks : Nat
  is_last_chunk : Bool
  chunk_char_count : Nat
  page_index : Nat
deriving Repr, DecidableEq

def mkChunkView (d : ChunkDict) : BatchChunkView :=
  { chunk_index := d.chunk_index, chunk_text := d.chunk_text,
    total_chunks := d.total_chunks, is_last_chunk := d.is_last,
    chunk_char_count := d.char_count, page_index := d.page_index }

structure BatchPayload where
  batch_index : Nat
  batch_size : Int
  chunk_count : Nat
  is_last_batch : Bool
  chunks : List BatchChunkView
deriving Repr, DecidableEq

/-- One batch payload (lines 68-84); `is_last_batch` is
`batch_index == total_batches - 1 if total_batches else True`. -/
def mkBatchPayload (batch_size total_batches : Int) (pr : Nat × List ChunkDict) :
    BatchPayload :=
  { batch_index := pr.1, batch_size := batch_size, chunk_count := pr.2.length,
    is_last_batch :=
      if total_batches ≠ 0 then decide ((pr.1 : Int) = total_batches - 1) else true,
    chunks := pr.2.map mkChunkView }

structure Summary where
  total_characters : Nat
  chunks_processed : Nat
  batches_sent : Int
deriving Repr, DecidableEq

structure AggregatedResult where
  success : Bool
  preprocessed : Bool
  total_chunks : Nat
  total_batches : Int
  batch_size : Int
  batch_results : List BatchPayload
  summary : Summary
deriving Repr, DecidableEq

/-- Error kinds escaping `preprocess_pdf_file`: `FileNotFoundError`, a
propagated extraction failure, the `ZeroDivisionError` from
`(total_chunks + batch_size - 1) // batch_size` at `batch_size = 0`, and the
`ValueError` raised by `_batched_chunks`. -/
inductive PreprocError where
  | fileNotFound : PreprocError
  | extractionFailed : String → PreprocError
  | zeroDivision : PreprocError
  | valueError : String → PreprocError
deriving Repr, DecidableEq

/-- `total_batches = (total_chunks + batch_size - 1) // batch_size if total_chunks else 0`
(line 64); Python `//` on ints is floor division. -/
def totalBatchesOf (n : Nat) (batch_size : Int) : Int :=
  if n ≠ 0 then Int.fdiv ((n : Int) + batch_size - 1) batch_size else 0

/-- `preprocess_pdf_file` (lines 39-104). The file system is modelled by the
boolean `fileOnDisk` and the external PDF extraction by `extracted` (its result,
or a propagated extraction failure); metadata-only string fields
(`file_name`, `company_ticker`, `report_type`) are not modelled. -/
def preprocess_pdf_file (fileOnDisk : Bool) (extracted : Except String (List Str))
    (batch_size : Int) : Except PreprocError AggregatedResult :=
  if fileOnDisk = false then Except.error PreprocError.fileNotFound
  else
    match extracted with
    | Except.error m => Except.error (PreprocError.extractionFailed m)
    | Except.ok pages =>
      let chunks := chunk_text defaultChunkerConfig pages
      let total_chunks := chunks.length
      let total_characters := (chunks.map (fun d => d.char_count)).sum
      if total_chunks ≠ 0 ∧ batch_size = 0 then Except.error PreprocError.zeroDivision
      else
        let total_batches := totalBatchesOf total_chunks batch_size
        match batchedChunks chunks batch_size with
        | Except.error m => Except.error (PreprocError.valueError m)
        | Except.ok pairs =>
          Except.ok
            { success := true, preprocessed := true, total_chunks := total_chunks,
              total_batches := total_batches, batch_size := batch_size,
              batch_results := pairs.map (mkBatchPayload batch_size total_batches),
              summary := { total_characters := total_characters,
                           chunks_processed := total_chunks,
                           batches_sent := total_batches } }

/-- The hypothesis of the bounded-chunk-size claim, traced along the loop:
at every split position where the tentative `chunk_end` is strictly inside the
text, one of the four break patterns occurs strictly after the position. -/
def goodBreakAt (text : Str) (pos ce : Nat) : Bool :=
  ((pyRfind text parPat pos ce).filter (fun j => decide (pos < j))).isSome ||
  ((pyRfind text nlPat pos ce).filter (fun j => decide (pos < j))).isSome ||
  ((pyRfind text dotPat pos ce).filter (fun j => decide (pos < j))).isSome ||
  ((pyRfind text spacePat pos ce).filter (fun j => decide (pos < j))).isSome

def breaksOk (cfg : ChunkerConfig) (text : Str) : Nat → Nat → Bool
  | 0, _ => true
  | fuel + 1, pos =>
    if pos < text.length then
      (if min (pos + cfg.maxChunkSize) text.length < text.length then
        goodBreakAt text pos (min (pos + cfg.maxChunkSize) text.length)
       else true)
      && breaksOk cfg text fuel (nextPosition cfg text pos)
    else true

/-- Specification fold for the running page index of the metadata loop:
starts at 1, replaced by `firstMarker + 1` at every marker-bearing chunk. -/
def pageIdxSpec (acc : Nat) : List Str → List Nat
  | [] => []
  | c :: rest =>
    let p := match searchMarker c with
      | some v => v + 1
      | none => acc
    p :: pageIdxSpec p rest

/-! ## Concrete inputs used by witnesses and counterexamples -/

deriving instance DecidableEq for Except

def c9Result : AggregatedResult :=
  { success := true, preprocessed := true, total_chunks := 1, total_batches := 1,
    batch_size := 3,
    batch_results := [{ batch_index := 0, batch_size := 3, chunk_count := 1,
                        is_last_batch := true,
                        chunks := [{ chunk_index := 0, chunk_text := ['a', 'b'],
                                     total_chunks := 1, is_last_chunk := true,
                                     chunk_char_count := 2, page_index := 0 }] }],
    summary := { total_characters := 2, chunks_processed := 1, batches_sent := 1 } }

def c6Chunk : ChunkDict :=
  { chunk_index := 0, chunk_text := ['x'], total_chunks := 7, char_count := 1,
    is_last := false, page_index := 1, page_range := none }

def c3Pages : List Str := [List.replicate 2000 'A', [], List.replicate 100 'B']

def c3Combined : Str :=
  List.replicate 2000 'A' ++
    (pageBreakMarker 1 ++ (pageBreakMarker 2 ++ List.replicate 100 'B'))

def c3Chunk2 : Str :=
  List.replicate 200 'A' ++
    (pageBreakMarker 1 ++ (pageBreakMarker 2 ++ List.replicate 100 'B'))

def c3Cfg : ChunkerConfig := { maxChunkSize := 1000, overlapSize := 100 }

def c3CexPages : List Str :=
  [("--- PAGE BREAK [7] --- ").data ++ List.replicate 40 'x', ['y', 'y']]

/-! ## Helper lemmas: string primitives -/

theorem length_dropWhile_le (p : Char → Bool) (l : Str) :
    (l.dropWhile p).length ≤ l.length :=
  (List.dropWhile_sublist p).length_le

theorem pyStrip_length_le (s : Str) : (pyStrip s).length ≤ s.length := by
  unfold pyStrip
  calc ((s.dropWhile pyIsSpace).reverse.dropWhile pyIsSpace).reverse.length
      = ((s.dropWhile pyIsSpace).reverse.dropWhile pyIsSpace).length := by
        simp
    _ ≤ (s.dropWhile pyIsSpace).reverse.length := length_dropWhile_le _ _
    _ = (s.dropWhile pyIsSpace).length := by simp
    _ ≤ s.length := length_dropWhile_le _ _

theorem subFindPositions_mem {pat s : Str} {i j : Nat}
    (h : j ∈ subFindPositions pat s i) : i ≤ j ∧ j + pat.length ≤ i + s.length := by
  induction s generalizing i with
  | nil => simp [subFindPositions] at h
  | cons c rest ih =>
    simp only [subFindPositions, List.mem_append] at h
    rcases h with h | h
    · rcases Decidable.em (pat.isPrefixOf (c :: rest) = true) with hp | hp
      · simp [hp] at h
        subst h
        refine ⟨le_refl _, ?_⟩
        have hle : pat.length ≤ (c :: rest).length :=
          (List.isPrefixOf_iff_prefix.mp hp).length_le
        omega
      · simp [hp] at h
    · have := ih h
      simp only [List.length_cons]
      omega

theorem pyRfind_some_bounds {s pat : Str} {a b j : Nat}
    (h : pyRfind s pat a b = some j) : a ≤ j ∧ j + pat.length ≤ a + (b - a) := by
  unfold pyRfind at h
  rcases Option.map_eq_some'.mp h with ⟨j0, hlast, hj⟩
  have hmem : j0 ∈ subFindPositions pat ((s.drop a).take (b - a)) 0 := by
    rcases List.getLast?_eq_some_iff.mp hlast with ⟨ys, hys⟩
    rw [hys]; simp
  have hb := subFindPositions_mem hmem
  have hlen : ((s.drop a).take (b - a)).length ≤ b - a := by
    simp [List.length_take]
  omega

theorem filterRfind_some {text pat : Str} {pos ce j : Nat}
    (h : (pyRfind text pat pos ce).filter (fun j => decide (pos < j)) = some j) :
    pos < j ∧ j + pat.length ≤ pos + (ce - pos) := by
  obtain ⟨hmem, hlt⟩ := Option.filter_eq_some.mp h
  have hb := pyRfind_some_bounds (Option.mem_def.mp hmem)
  exact ⟨of_decide_eq_true hlt, hb.2⟩

theorem adjustEnd_le {text : Str} {pos ce : Nat} (hpc : pos ≤ ce) :
    adjustEnd text pos ce ≤ ce := by
  unfold adjustEnd
  split
  case h_1 j hj =>
    have := filterRfind_some hj
    simp [parPat] at this; omega
  case h_2 =>
    split
    case h_1 j hj =>
      have := filterRfind_some hj
      simp [nlPat] at this; omega
    case h_2 =>
      split
      case h_1 j hj =>
        have := filterRfind_some hj
        simp [dotPat] at this; omega
      case h_2 =>
        split
        case h_1 j hj =>
          have := filterRfind_some hj
          simp [spacePat] at this; omega
        case h_2 => exact le_refl _

theorem lt_adjustEnd {text : Str} {pos ce : Nat} (hpc : pos < ce) :
    pos < adjustEnd text pos ce := by
  unfold adjustEnd
  split
  case h_1 j hj => have := filterRfind_some hj; omega
  case h_2 =>
    split
    case h_1 j hj => have := filterRfind_some hj; omega
    case h_2 =>
      split
      case h_1 j hj => have := filterRfind_some hj; omega
      case h_2 =>
        split
        case h_1 j hj => have := filterRfind_some hj; omega
        case h_2 => exact hpc

theorem chunkEndAt_le_add (cfg : ChunkerConfig) (text : Str) (pos : Nat) :
    chunkEndAt cfg text pos ≤ pos + cfg.maxChunkSize := by
  simp only [chunkEndAt]
  split
  case isTrue h =>
    have h1 : pos ≤ min (pos + cfg.maxChunkSize) text.length := by omega
    have := @adjustEnd_le text _ _ h1
    omega
  case isFalse => omega

theorem chunkEndAt_le_length (cfg : ChunkerConfig) (text : Str) (pos : Nat) :
    chunkEndAt cfg text pos ≤ text.length := by
  simp only [chunkEndAt]
  split
  case isTrue h =>
    have h1 : pos ≤ min (pos + cfg.maxChunkSize) text.length := by omega
    have := @adjustEnd_le text _ _ h1
    omega
  case isFalse => omega

theorem lt_chunkEndAt {cfg : ChunkerConfig} {text : Str} {pos : Nat}
    (hpos : pos < text.length) (hmax : 0 < cfg.maxChunkSize) :
    pos < chunkEndAt cfg text pos := by
  simp only [chunkEndAt]
  have h1 : pos < min (pos + cfg.maxChunkSize) text.length := by omega
  split
  case isTrue h => exact lt_adjustEnd h1
  case isFalse => exact h1

theorem lt_nextPosition {cfg : ChunkerConfig} {text : Str} {pos : Nat}
    (hpos : pos < text.length) (hmax : 0 < cfg.maxChunkSize) :
    pos < nextPosition cfg text pos := by
  simp only [nextPosition]
  have hce := lt_chunkEndAt hpos hmax
  split
  case isTrue h => omega
  case isFalse => exact hce

/-! ## Helper lemmas: strip idempotence -/

theorem dropWhile_idem (p : Char → Bool) (l : Str) :
    (l.dropWhile p).dropWhile p = l.dropWhile p := by
  induction l with
  | nil => simp
  | cons c t ih =>
    by_cases h : p c
    · simp [List.dropWhile_cons, h, ih]
    · simp [List.dropWhile_cons, h]

theorem exists_append_dropWhile (p : Char → Bool) (l : Str) :
    ∃ u : Str, l = u ++ l.dropWhile p := by
  induction l with
  | nil => exact ⟨[], rfl⟩
  | cons c t ih =>
    by_cases h : p c
    · obtain ⟨u, hu⟩ := ih
      refine ⟨c :: u, ?_⟩
      simp only [List.dropWhile_cons, h, if_true, List.cons_append]
      exact congrArg (c :: ·) hu
    · exact ⟨[], by simp [List.dropWhile_cons, h]⟩

theorem dropWhile_eq_cons_head_false {p : Char → Bool} {l t : Str} {c : Char}
    (h : l.dropWhile p = c :: t) : p c = false := by
  induction l with
  | nil => simp at h
  | cons a s ih =>
    by_cases ha : p a
    · rw [List.dropWhile_cons, if_pos ha] at h
      exact ih h
    · rw [List.dropWhile_cons, if_neg ha] at h
      rcases List.cons.injEq .. ▸ h with ⟨rfl, rfl⟩
      simpa using ha

theorem pyStrip_idem (s : Str) : pyStrip (pyStrip s) = pyStrip s := by
  have h1 : (pyStrip s).dropWhile pyIsSpace = pyStrip s := by
    cases hB : pyStrip s with
    | nil => simp
    | cons c t =>
      obtain ⟨u, hu⟩ := exists_append_dropWhile pyIsSpace (s.dropWhile pyIsSpace).reverse
      have hA : s.dropWhile pyIsSpace = pyStrip s ++ u.reverse := by
        have h2 := congrArg List.reverse hu
        simp only [List.reverse_reverse, List.reverse_append] at h2
        exact h2
      rw [hB] at hA
      have hc : pyIsSpace c = false := dropWhile_eq_cons_head_false (by simpa using hA)
      simp [List.dropWhile_cons, hc]
  have h2 : (pyStrip s).reverse.dropWhile pyIsSpace = (pyStrip s).reverse := by
    have h3 : (pyStrip s).reverse = ((s.dropWhile pyIsSpace).reverse).dropWhile pyIsSpace := by
      simp [pyStrip]
    rw [h3, dropWhile_idem]
  rw [show pyStrip (pyStrip s)
        = (((pyStrip s).dropWhile pyIsSpace).reverse.dropWhile pyIsSpace).reverse from rfl,
      h1, h2, List.reverse_reverse]

/-! ## Helper lemmas: the splitting loop -/

theorem sliceStr_length_le (s : Str) (a b : Nat) : (sliceStr s a b).length ≤ b - a := by
  simp [sliceStr, List.length_take]

theorem chunkLoop_mem_facts {cfg : ChunkerConfig} {text : Str} :
    ∀ {fuel pos : Nat} {c : Str}, c ∈ chunkLoop cfg text fuel pos →
      c.length ≤ cfg.maxChunkSize ∧ c ≠ [] ∧ pyStrip c = c := by
  intro fuel
  induction fuel with
  | zero => intro pos c h; simp [chunkLoop] at h
  | succ n ih =>
    intro pos c h
    simp only [chunkLoop] at h
    split at h
    case isFalse => simp at h
    case isTrue hpos =>
      split at h
      case isTrue => exact ih h
      case isFalse hne =>
        rcases List.mem_cons.mp h with rfl | h2
        · refine ⟨?_, hne, pyStrip_idem _⟩
          have h1 := pyStrip_length_le (sliceStr text pos (chunkEndAt cfg text pos))
          have h2 := sliceStr_length_le text pos (chunkEndAt cfg text pos)
          have h3 := chunkEndAt_le_add cfg text pos
          omega
        · exact ih h2

theorem chunkLoop_stable {cfg : ChunkerConfig} {text : Str}
    (hmax : 0 < cfg.maxChunkSize) :
    ∀ fuelA fuelB pos, text.length - pos ≤ fuelA → text.length - pos ≤ fuelB →
      chunkLoop cfg text fuelA pos = chunkLoop cfg text fuelB pos := by
  intro fuelA
  induction fuelA with
  | zero =>
    intro fuelB pos hA hB
    have hpos : ¬ pos < text.length := by omega
    cases fuelB with
    | zero => rfl
    | succ m => simp [chunkLoop, hpos]
  | succ n ih =>
    intro fuelB pos hA hB
    by_cases hpos : pos < text.length
    · cases fuelB with
      | zero => omega
      | succ m =>
        simp only [chunkLoop, if_pos hpos]
        have hnext := lt_nextPosition hpos hmax
        have := ih m (nextPosition cfg text pos) (by omega) (by omega)
        rw [this]
    · cases fuelB with
      | zero => simp [chunkLoop, hpos]
      | succ m => simp [chunkLoop, hpos]

/-! ## Helper lemmas: the metadata loop -/

theorem buildDictsGo_mem {total : Nat} :
    ∀ {idx acc : Nat} {l : List Str} {d : ChunkDict}, d ∈ buildDictsGo total idx acc l →
      d.chunk_text ∈ l ∧ d.char_count = d.chunk_text.length := by
  intro idx acc l
  induction l generalizing idx acc with
  | nil => intro d h; simp [buildDictsGo] at h
  | cons c rest ih =>
    intro d h
    simp only [buildDictsGo, List.mem_cons] at h
    rcases h with rfl | h2
    · exact ⟨List.mem_cons_self .., rfl⟩
    · have := ih h2
      exact ⟨List.mem_cons_of_mem _ this.1, this.2⟩

theorem buildDictsGo_page_ge_one {total : Nat} :
    ∀ {idx acc : Nat} {l : List Str} {d : ChunkDict}, 1 ≤ acc →
      d ∈ buildDictsGo total idx acc l → 1 ≤ d.page_index := by
  intro idx acc l
  induction l generalizing idx acc with
  | nil => intro d _ h; simp [buildDictsGo] at h
  | cons c rest ih =>
    intro d hacc h
    cases hs : searchMarker c with
    | some v =>
      simp only [buildDictsGo, hs, List.mem_cons] at h
      rcases h with rfl | h2
      · simp
      · exact ih (Nat.le_add_left 1 v) h2
    | none =>
      simp only [buildDictsGo, hs, List.mem_cons] at h
      rcases h with rfl | h2
      · simpa using hacc
      · exact ih hacc h2

theorem buildDictsGo_map_index {total : Nat} :
    ∀ {idx acc : Nat} {l : List Str},
      (buildDictsGo total idx acc l).map (fun d => d.chunk_index) =
        List.range' idx l.length := by
  intro idx acc l
  induction l generalizing idx acc with
  | nil => simp [buildDictsGo]
  | cons c rest ih => simp [buildDictsGo, List.range'_succ, ih]

theorem buildDictsGo_map_page {total : Nat} :
    ∀ {idx acc : Nat} {l : List Str},
      (buildDictsGo total idx acc l).map (fun d => d.page_index) = pageIdxSpec acc l := by
  intro idx acc l
  induction l generalizing idx acc with
  | nil => simp [buildDictsGo, pageIdxSpec]
  | cons c rest ih => simp [buildDictsGo, pageIdxSpec, ih]

theorem chunk_text_char_count {cfg : ChunkerConfig} {pages : List Str} :
    ∀ d ∈ chunk_text cfg pages, d.char_count = d.chunk_text.length := by
  intro d h
  simp only [chunk_text] at h
  split at h
  · simp at h
  · split at h
    · simp only [List.mem_singleton] at h
      subst h; rfl
    · exact (buildDictsGo_mem h).2

/-! ## Helper lemmas: batching -/

theorem slicesFuel_eq_of_le (b : Nat) :
    ∀ (n m : Nat) (l : List α), l.length ≤ n → l.length ≤ m →
      slicesFuel b n l = slicesFuel b m l := by
  intro n
  induction n with
  | zero =>
    intro m l hn hm
    cases l with
    | nil => cases m <;> rfl
    | cons x xs => simp at hn
  | succ n ih =>
    intro m l hn hm
    cases l with
    | nil => cases m <;> rfl
    | cons x xs =>
      cases m with
      | zero => simp at hm
      | succ m =>
        simp only [slicesFuel]
        have hlen : (xs.drop b).length ≤ n ∧ (xs.drop b).length ≤ m := by
          simp only [List.length_drop]
          simp only [List.length_cons] at hn hm
          omega
        rw [ih m _ hlen.1 hlen.2]

theorem slicesFuel_flatten (b : Nat) :
    ∀ (n : Nat) (l : List α), l.length ≤ n → (slicesFuel b n l).flatten = l := by
  intro n
  induction n with
  | zero =>
    intro l h
    cases l with
    | nil => rfl
    | cons x xs => simp at h
  | succ n ih =>
    intro l h
    cases l with
    | nil => rfl
    | cons x xs =>
      simp only [slicesFuel, List.flatten_cons]
      have hlen : (xs.drop b).length ≤ n := by
        simp only [List.length_drop]
        simp only [List.length_cons] at h
        omega
      rw [ih _ hlen]
      simp

theorem slicesAux_flatten (b : Nat) (l : List α) : (slicesAux b l).flatten = l :=
  slicesFuel_flatten b l.length l (le_refl _)

theorem slicesFuel_mem_length_le (b : Nat) :
    ∀ (n : Nat) (l : List α) (s : List α), l.length ≤ n → s ∈ slicesFuel b n l →
      s.length ≤ b + 1 := by
  intro n
  induction n with
  | zero =>
    intro l s h hs
    cases l with
    | nil => simp [slicesFuel] at hs
    | cons x xs => simp at h
  | succ n ih =>
    intro l s h hs
    cases l with
    | nil => simp [slicesFuel] at hs
    | cons x xs =>
      rw [slicesFuel] at hs
      rcases List.mem_cons.mp hs with rfl | h2
      · simp only [List.length_cons]
        have := List.length_take_le b xs
        omega
      · have hlen : (xs.drop b).length ≤ n := by
          simp only [List.length_drop]
          simp only [List.length_cons] at h
          omega
        exact ih _ _ hlen h2

theorem slicesAux_mem_length_le (b : Nat) (l : List α) (s : List α)
    (hs : s ∈ slicesAux b l) : s.length ≤ b + 1 :=
  slicesFuel_mem_length_le b l.length l s (le_refl _) hs

theorem slicesFuel_length (b : Nat) :
    ∀ (n : Nat) (l : List α), l.length ≤ n →
      (slicesFuel b n l).length = (l.length + b) / (b + 1) := by
  intro n
  induction n with
  | zero =>
    intro l h
    cases l with
    | nil =>
      simp [slicesFuel]
      exact (Nat.div_eq_of_lt (by omega)).symm
    | cons x xs => simp at h
  | succ n ih =>
    intro l h
    cases l with
    | nil =>
      simp [slicesFuel]
      exact (Nat.div_eq_of_lt (by omega)).symm
    | cons x xs =>
      rw [slicesFuel]
      simp only [List.length_cons]
      have hlen : (xs.drop b).length ≤ n := by
        simp only [List.length_drop]
        simp only [List.length_cons] at h
        omega
      rw [ih _ hlen]
      simp only [List.length_drop]
      by_cases hb : b ≤ xs.length
      · have h1 : xs.length - b + b = xs.length := by omega
        rw [h1]
        have h2 : xs.length + 1 + b = xs.length + (b + 1) := by omega
        rw [h2, Nat.add_div_right _ (by omega)]
      · have h1 : xs.length - b = 0 := by omega
        rw [h1]
        have h2 : (0 + b) / (b + 1) = 0 := Nat.div_eq_of_lt (by omega)
        rw [h2]
        have h3 : (xs.length + 1 + b) / (b + 1) = 1 :=
          Nat.div_eq_of_lt_le (by omega) (by omega)
        omega

theorem slicesAux_length (b : Nat) (l : List α) :
    (slicesAux b l).length = (l.length + b) / (b + 1) :=
  slicesFuel_length b l.length l (le_refl _)

theorem enumerateFrom_map_snd (i : Nat) :
    ∀ l : List α, (enumerateFrom i l).map Prod.snd = l := by
  intro l
  induction l generalizing i with
  | nil => simp [enumerateFrom]
  | cons x xs ih => simp [enumerateFrom, ih]

theorem enumerateFrom_map_fst (i : Nat) :
    ∀ l : List α, (enumerateFrom i l).map Prod.fst = List.range' i l.length := by
  intro l
  induction l generalizing i with
  | nil => simp [enumerateFrom]
  | cons x xs ih => simp [enumerateFrom, List.range'_succ, ih]

theorem enumerateFrom_length (i : Nat) (l : List α) :
    (enumerateFrom i l).length = l.length := by
  induction l generalizing i with
  | nil => rfl
  | cons x xs ih => simp [enumerateFrom, ih]

theorem enumerateFrom_mem {i : Nat} {l : List α} {pr : Nat × α}
    (h : pr ∈ enumerateFrom i l) : pr.2 ∈ l ∧ i ≤ pr.1 ∧ pr.1 < i + l.length := by
  induction l generalizing i with
  | nil => simp [enumerateFrom] at h
  | cons x xs ih =>
    simp only [enumerateFrom, List.mem_cons] at h
    rcases h with rfl | h2
    · simp
    · have := ih h2
      refine ⟨List.mem_cons_of_mem _ this.1, by omega, ?_⟩
      simp only [List.length_cons]
      omega

theorem totalBatchesOf_pos_eq {n : Nat} {bs : Int} (hbs : 0 < bs) :
    totalBatchesOf n bs = ((n + bs.toNat - 1) / bs.toNat : Nat) := by
  unfold totalBatchesOf
  by_cases hn : n ≠ 0
  · rw [if_pos hn]
    have hbsn : bs = (bs.toNat : Int) := by omega
    rw [hbsn]
    have h1 : (n : Int) + (bs.toNat : Int) - 1 = ((n + bs.toNat - 1 : Nat) : Int) := by
      have : 1 ≤ bs.toNat := by omega
      omega
    rw [h1, Int.fdiv_eq_ediv _ (by omega)]
    exact_mod_cast (Int.ofNat_ediv _ _).symm
  · rw [if_neg hn]
    have : n = 0 := by omega
    subst this
    have : 0 < bs.toNat := by omega
    rw [Nat.div_eq_of_lt (by omega)]
    rfl

theorem buildDictsGo_length {total : Nat} :
    ∀ {idx acc : Nat} {l : List Str}, (buildDictsGo total idx acc l).length = l.length := by
  intro idx acc l
  induction l generalizing idx acc with
  | nil => rfl
  | cons c rest ih => simp [buildDictsGo, ih]

/-! ## Claim theorems -/

/-- C1: for every sequence of page texts on which at least one valid break
point (paragraph break, newline, sentence end, or space strictly after the
current position) exists within `max_chunk_size` of each split position
(`breaksOk`), every chunk emitted by `chunk_text` has
`char_count ≤ max_chunk_size`. (The bound in fact holds for all inputs:
the loop never moves `chunk_end` beyond `current_pos + max_chunk_size`.) -/
theorem chunk_char_count_le_max (cfg : ChunkerConfig) (pages : List Str)
    (hbreaks : breaksOk cfg (combinedText pages) (combinedText pages).length 0 = true) :
    ∀ d ∈ chunk_text cfg pages, d.char_count ≤ cfg.maxChunkSize := by
  intro d h
  simp only [chunk_text] at h
  split at h
  · simp at h
  · split at h
    case isTrue hle =>
      simp only [List.mem_singleton] at h
      subst h
      simpa using hle
    case isFalse hle =>
      obtain ⟨hmem, hcc⟩ := buildDictsGo_mem h
      have hlen := (chunkLoop_mem_facts hmem).1
      omega

/-- Witness for C1 at the concrete input `pages = ["ab"]`, `max = 1500`. -/
theorem chunk_char_count_le_max_witness :
    breaksOk ⟨1500, 200⟩ (combinedText [['a', 'b']]) (combinedText [['a', 'b']]).length 0
        = true ∧
    ∀ d ∈ chunk_text ⟨1500, 200⟩ [['a', 'b']], d.char_count ≤ 1500 :=
  ⟨by decide, chunk_char_count_le_max ⟨1500, 200⟩ [['a', 'b']] (by decide)⟩

/-- C10: with `max_chunk_size > 0` the splitting loop terminates — every
iteration strictly increases `current_pos`, and `text.length - pos` steps of
fuel already compute the loop's final value (extra fuel changes nothing),
for every `overlap_size`, including `overlap_size ≥ max_chunk_size`. -/
theorem chunk_loop_terminating (cfg : ChunkerConfig) (text : Str)
    (hmax : 0 < cfg.maxChunkSize) :
    (∀ pos, pos < text.length → pos < nextPosition cfg text pos) ∧
    (∀ pos fuel, text.length - pos ≤ fuel →
      chunkLoop cfg text fuel pos = chunkLoop cfg text (text.length - pos) pos) := by
  refine ⟨fun pos h => lt_nextPosition h hmax, fun pos fuel hf => ?_⟩
  exact chunkLoop_stable hmax fuel (text.length - pos) pos hf (le_refl _)

/-- Witness for C10 at `max = 5`, `overlap = 7 ≥ max`, `text = "ab cd"`. -/
theorem chunk_loop_terminating_witness :
    0 < (5 : Nat) ∧
    (0 < (("ab cd").data).length → 0 < nextPosition ⟨5, 7⟩ (("ab cd").data) 0) ∧
    chunkLoop ⟨5, 7⟩ (("ab cd").data) 99 0 =
      chunkLoop ⟨5, 7⟩ (("ab cd").data) ((("ab cd").data).length - 0) 0 :=
  ⟨by decide,
   fun h => (chunk_loop_terminating ⟨5, 7⟩ (("ab cd").data) (by decide)).1 0 h,
   (chunk_loop_terminating ⟨5, 7⟩ (("ab cd").data) (by decide)).2 0 99 (by decide)⟩

/-- C5: the batching stage rejects `batch_size ≤ 0` with the configuration
`ValueError` before producing any batch (the generator raises before its
first `yield`, so no partial output exists). -/
theorem batch_nonpositive_rejected (chunks : List ChunkDict) (batch_size : Int)
    (h : batch_size ≤ 0) :
    batchedChunks chunks batch_size =
      Except.error "batch_size must be greater than zero" := by
  simp [batchedChunks, h]

/-- Witness for C5 at `batch_size = 0`. -/
theorem batch_nonpositive_rejected_witness :
    (0 : Int) ≤ 0 ∧
    batchedChunks [] 0 = Except.error "batch_size must be greater than zero" :=
  ⟨le_refl 0, batch_nonpositive_rejected [] 0 (le_refl 0)⟩

/-- C8: when the input file does not exist, `preprocess_pdf_file` fails with
the distinct file-not-found error before any extraction or chunking — the
result is the same error for every possible extraction outcome and batch
size, and carries no partial chunk or batch output. -/
theorem missing_file_fails_fast (extracted : Except String (List Str))
    (batch_size : Int) :
    preprocess_pdf_file false extracted batch_size =
      Except.error PreprocError.fileNotFound := rfl

/-- C2 counterexample: for `pages = ["", ""]` the combined text consists of
one page-break marker (26 characters, `0 < 26 ≤ 1500`), yet `chunk_text`
returns the empty list — not a single chunk — because the early return
triggers on "all pages empty", not on "combined length zero". -/
theorem single_chunk_claim_cex :
    (combinedText [[], []]).length ≤ 1500 ∧ (combinedText [[], []]).length ≠ 0 ∧
    chunk_text ⟨1500, 200⟩ [[], []] = [] := by
  refine ⟨by decide, by decide, by decide⟩

/-- C2 amended: `chunk_text` returns the empty sequence exactly when no page
is non-empty; otherwise, when the combined text (page-break markers included)
has length `≤ max_chunk_size` — the boundary included — it returns exactly one
chunk spanning the whole combined text with `chunk_index = 0`,
`page_index = 0`, `total_chunks = 1` and `is_last = true`. -/
theorem single_chunk_amended (cfg : ChunkerConfig) (pages : List Str) :
    (pages.all List.isEmpty = true → chunk_text cfg pages = []) ∧
    (pages.all List.isEmpty = false →
      (combinedText pages).length ≤ cfg.maxChunkSize →
      chunk_text cfg pages =
        [{ chunk_index := 0, chunk_text := combinedText pages, total_chunks := 1,
           char_count := (combinedText pages).length, is_last := true, page_index := 0,
           page_range := some (0, pages.length - 1) }]) := by
  constructor
  · intro hall
    simp [chunk_text, hall]
  · intro hall hle
    have hne : pages.isEmpty = false := by
      cases pages with
      | nil => simp at hall
      | cons p ps => rfl
    simp only [chunk_text, hall, hne, Bool.or_self, Bool.false_eq_true, if_false,
      if_pos hle]

/-- Witness for C2 (amended) at the boundary `L = max_chunk_size = 2`. -/
theorem single_chunk_amended_witness :
    ([['a', 'b']] : List Str).all List.isEmpty = false ∧
    (combinedText [['a', 'b']]).length ≤ 2 ∧
    chunk_text ⟨2, 0⟩ [['a', 'b']] =
      [{ chunk_index := 0, chunk_text := combinedText [['a', 'b']], total_chunks := 1,
         char_count := (combinedText [['a', 'b']]).length, is_last := true,
         page_index := 0, page_range := some (0, ([['a', 'b']] : List Str).length - 1) }] :=
  ⟨by decide, by decide,
   (single_chunk_amended ⟨2, 0⟩ [['a', 'b']]).2 (by decide) (by decide)⟩

/-- C4 counterexample: for the one-page document `["a"]` the single chunk
starts on the first page, whose 1-based index is 1, but `chunk_text` emits
`page_index = 0` (the single-chunk path is 0-based). -/
theorem page_index_one_based_cex :
    (chunk_text ⟨1500, 200⟩ [['a']]).map (fun d => d.page_index) = [0] ∧
    (0 : Nat) ≠ 1 := by
  refine ⟨by decide, by decide⟩

/-- C4 amended: the single-chunk path emits `page_index = 0`; the splitting
path emits the running-marker page index (`pageIdxSpec`): 1 until some chunk's
text contains a page-break marker, then `first marker value + 1` carried
forward — the index of the page most recently entered inside a chunk, which
is not in general the page on which the chunk's text starts. -/
theorem page_index_rule_amended (cfg : ChunkerConfig) (pages : List Str) :
    (pages.all List.isEmpty = false →
      (combinedText pages).length ≤ cfg.maxChunkSize →
      (chunk_text cfg pages).map (fun d => d.page_index) = [0]) ∧
    (pages.all List.isEmpty = false →
      cfg.maxChunkSize < (combinedText pages).length →
      (chunk_text cfg pages).map (fun d => d.page_index) =
        pageIdxSpec 1
          (chunkLoop cfg (combinedText pages) (combinedText pages).length 0)) := by
  have hne : pages.all List.isEmpty = false → pages.isEmpty = false := by
    intro hall
    cases pages with
    | nil => simp at hall
    | cons p ps => rfl
  constructor
  · intro hall hle
    simp only [chunk_text, hall, hne hall, Bool.or_self, Bool.false_eq_true, if_false,
      if_pos hle]
    rfl
  · intro hall hlt
    have hnle : ¬ (combinedText pages).length ≤ cfg.maxChunkSize := by omega
    simp only [chunk_text, hall, hne hall, Bool.or_self, Bool.false_eq_true, if_false,
      if_neg hnle]
    exact buildDictsGo_map_page

/-- Witness for C4 (amended) on a splitting-path input. -/
theorem page_index_rule_amended_witness :
    ([("ab cd ef").data] : List Str).all List.isEmpty = false ∧
    (4 : Nat) < (combinedText [("ab cd ef").data]).length ∧
    (chunk_text ⟨4, 0⟩ [("ab cd ef").data]).map (fun d => d.page_index) =
      pageIdxSpec 1
        (chunkLoop ⟨4, 0⟩ (combinedText [("ab cd ef").data])
          (combinedText [("ab cd ef").data]).length 0) :=
  ⟨by decide, by decide,
   (page_index_rule_amended ⟨4, 0⟩ [("ab cd ef").data]).2 (by decide) (by decide)⟩

/-- C7 counterexample: a single whitespace-only page takes the single-chunk
path, which performs no trimming: the emitted chunk's text `" "` trims to
empty, so not every emitted chunk has non-empty text after trimming. -/
theorem whitespace_chunk_cex :
    chunk_text ⟨1500, 200⟩ [[' ']] =
      [{ chunk_index := 0, chunk_text := [' '], total_chunks := 1, char_count := 1,
         is_last := true, page_index := 0, page_range := some (0, 0) }] ∧
    pyStrip [' '] = [] := by
  refine ⟨by decide, by decide⟩

/-- C7 amended: `chunk_index` values always form the gapless sequence
`0 .. total_chunks - 1`; on the splitting path every emitted chunk is
non-empty and already trimmed (candidates trimming to empty are discarded
without consuming an index) — but the single-chunk path emits the untrimmed
combined text, which may be whitespace-only. -/
theorem nonempty_chunk_amended (cfg : ChunkerConfig) (pages : List Str) :
    ((chunk_text cfg pages).map (fun d => d.chunk_index) =
      List.range (chunk_text cfg pages).length) ∧
    (cfg.maxChunkSize < (combinedText pages).length →
      ∀ d ∈ chunk_text cfg pages, d.chunk_text ≠ [] ∧ pyStrip d.chunk_text = d.chunk_text) := by
  constructor
  · by_cases h1 : (pages.isEmpty || pages.all List.isEmpty) = true
    · simp [chunk_text, h1]
    · by_cases h2 : (combinedText pages).length ≤ cfg.maxChunkSize
      · simp [chunk_text, h1, h2]
        decide
      · simp only [chunk_text, h1, Bool.false_eq_true, if_false, if_neg h2]
        rw [buildDictsGo_map_index, buildDictsGo_length, List.range_eq_range']
  · intro hlt d hd
    simp only [chunk_text] at hd
    split at hd
    · simp at hd
    · split at hd
      case isTrue hle => omega
      case isFalse =>
        obtain ⟨hmem, _⟩ := buildDictsGo_mem hd
        have hf := chunkLoop_mem_facts hmem
        exact ⟨hf.2.1, hf.2.2⟩

/-- Witness for C7 (amended) on a splitting-path input. -/
theorem nonempty_chunk_amended_witness :
    ((chunk_text ⟨4, 0⟩ [("ab cd ef").data]).map (fun d => d.chunk_index) =
      List.range (chunk_text ⟨4, 0⟩ [("ab cd ef").data]).length) ∧
    ((4 : Nat) < (combinedText [("ab cd ef").data]).length ∧
      ∀ d ∈ chunk_text ⟨4, 0⟩ [("ab cd ef").data],
        d.chunk_text ≠ [] ∧ pyStrip d.chunk_text = d.chunk_text) :=
  ⟨(nonempty_chunk_amended ⟨4, 0⟩ [("ab cd ef").data]).1,
   by decide,
   (nonempty_chunk_amended ⟨4, 0⟩ [("ab cd ef").data]).2 (by decide)⟩

/-- C6: for `batch_size > 0` the batching stage partitions the chunk list into
contiguous slices of at most `batch_size` chunks, preserving order within and
across batches (their concatenation is the original list), with batch indices
`0 .. total_batches - 1`, `total_batches = ceil(chunk_count / batch_size)`
(zero when there are no chunks), and `is_last_batch` true exactly on the final
batch. -/
theorem batch_partition_correct (chunks : List ChunkDict) (batch_size : Int)
    (hbs : 0 < batch_size) :
    ∃ pairs, batchedChunks chunks batch_size = Except.ok pairs ∧
      (pairs.map Prod.snd).flatten = chunks ∧
      (∀ pr ∈ pairs, pr.2.length ≤ batch_size.toNat) ∧
      pairs.map Prod.fst = List.range pairs.length ∧
      pairs.length = (chunks.length + batch_size.toNat - 1) / batch_size.toNat ∧
      (chunks.length = 0 → pairs.length = 0) ∧
      totalBatchesOf chunks.length batch_size = (pairs.length : Int) ∧
      (∀ pr ∈ pairs,
        (mkBatchPayload batch_size
            (totalBatchesOf chunks.length batch_size) pr).is_last_batch = true ↔
          pr.1 = pairs.length - 1) := by
  have hm1 : 1 ≤ batch_size.toNat := by omega
  have hbeq : slicesOf batch_size.toNat chunks
      = slicesAux (batch_size.toNat - 1) chunks := by
    cases hmm : batch_size.toNat with
    | zero => omega
    | succ b => simp [slicesOf]
  have hok : batchedChunks chunks batch_size
      = Except.ok (enumerateFrom 0 (slicesAux (batch_size.toNat - 1) chunks)) := by
    unfold batchedChunks
    rw [if_neg (by omega), hbeq]
  have hslen : (slicesAux (batch_size.toNat - 1) chunks).length
      = (chunks.length + batch_size.toNat - 1) / batch_size.toNat := by
    rw [slicesAux_length]
    congr 1 <;> omega
  have hplen :
      (enumerateFrom 0 (slicesAux (batch_size.toNat - 1) chunks)).length
        = (slicesAux (batch_size.toNat - 1) chunks).length :=
    enumerateFrom_length 0 _
  refine ⟨enumerateFrom 0 (slicesAux (batch_size.toNat - 1) chunks),
    hok, ?_, ?_, ?_, ?_, ?_, ?_, ?_⟩
  · rw [enumerateFrom_map_snd, slicesAux_flatten]
  · intro pr hpr
    have h2 := (enumerateFrom_mem hpr).1
    have h3 := slicesAux_mem_length_le _ _ _ h2
    omega
  · rw [enumerateFrom_map_fst, List.range_eq_range', hplen]
  · rw [hplen, hslen]
  · intro h0
    rw [hplen, hslen]
    apply Nat.div_eq_of_lt
    omega
  · rw [totalBatchesOf_pos_eq hbs, hplen, hslen]
  · intro pr hpr
    have hchunks : chunks.length ≠ 0 := by
      intro hc
      have hnil : chunks = [] := List.length_eq_zero.mp hc
      subst hnil
      simp [slicesAux, slicesFuel, enumerateFrom] at hpr
    have hmem := enumerateFrom_mem hpr
    have hplen1 : 1 ≤ (enumerateFrom 0 (slicesAux (batch_size.toNat - 1) chunks)).length := by
      cases hp2 : enumerateFrom 0 (slicesAux (batch_size.toNat - 1) chunks) with
      | nil => rw [hp2] at hpr; simp at hpr
      | cons a l => simp
    have htb : totalBatchesOf chunks.length batch_size
        = ((enumerateFrom 0 (slicesAux (batch_size.toNat - 1) chunks)).length : Int) := by
      rw [totalBatchesOf_pos_eq hbs, hplen, hslen]
    simp only [mkBatchPayload]
    rw [htb, if_pos (by omega)]
    simp only [decide_eq_true_eq]
    omega

/-- Witness for C6: 7 chunks with `batch_size = 3` give 3 batches with
`chunk_count` values `[3, 3, 1]` and `total_batches = 3`. -/
theorem batch_partition_correct_witness :
    (0 : Int) < 3 ∧
    (∃ pairs, batchedChunks (List.replicate 7 c6Chunk) 3 = Except.ok pairs ∧
      (pairs.map Prod.snd).flatten = List.replicate 7 c6Chunk ∧
      (∀ pr ∈ pairs, pr.2.length ≤ (3 : Int).toNat) ∧
      pairs.map Prod.fst = List.range pairs.length ∧
      pairs.length = ((List.replicate 7 c6Chunk).length + (3 : Int).toNat - 1)
        / (3 : Int).toNat ∧
      ((List.replicate 7 c6Chunk).length = 0 → pairs.length = 0) ∧
      totalBatchesOf (List.replicate 7 c6Chunk).length 3 = (pairs.length : Int) ∧
      (∀ pr ∈ pairs,
        (mkBatchPayload 3
            (totalBatchesOf (List.replicate 7 c6Chunk).length 3) pr).is_last_batch = true ↔
          pr.1 = pairs.length - 1)) ∧
    (slicesOf 3 (List.replicate 7 c6Chunk)).map List.length = [3, 3, 1] ∧
    totalBatchesOf 7 3 = 3 :=
  ⟨by decide, batch_partition_correct (List.replicate 7 c6Chunk) 3 (by decide),
   by decide, by decide⟩

/-- C9: every successful `preprocess_pdf_file` result reports
`summary.total_characters` equal to the sum of the chunks' `char_count`
values, i.e. the sum of the chunk-text lengths (so overlapped regions are
double-counted), `summary.chunks_processed = total_chunks`, and
`summary.batches_sent = total_batches`. -/
theorem summary_totals_consistent (fileOnDisk : Bool) (pages : List Str)
    (batch_size : Int) (r : AggregatedResult)
    (h : preprocess_pdf_file fileOnDisk (Except.ok pages) batch_size = Except.ok r) :
    r.summary.total_characters =
      ((chunk_text defaultChunkerConfig pages).map (fun d => d.chunk_text.length)).sum ∧
    r.summary.chunks_processed = r.total_chunks ∧
    r.summary.batches_sent = r.total_batches := by
  have hmap : (chunk_text defaultChunkerConfig pages).map (fun d => d.char_count)
      = (chunk_text defaultChunkerConfig pages).map (fun d => d.chunk_text.length) :=
    List.map_congr_left (fun d hd => chunk_text_char_count d hd)
  simp only [preprocess_pdf_file] at h
  split at h
  · simp at h
  · split at h
    · simp at h
    · split at h
      case h_1 => simp at h
      case h_2 pairs heq =>
        injection h with h2
        subst h2
        refine ⟨?_, rfl, rfl⟩
        simp only []
        rw [hmap]

/-- Witness for C9 on a concrete successful run. -/
theorem summary_totals_consistent_witness :
    preprocess_pdf_file true (Except.ok [['a', 'b']]) 3 = Except.ok c9Result ∧
    (c9Result.summary.total_characters =
      ((chunk_text defaultChunkerConfig [['a', 'b']]).map
        (fun d => d.chunk_text.length)).sum ∧
     c9Result.summary.chunks_processed = c9Result.total_chunks ∧
     c9Result.summary.batches_sent = c9Result.total_batches) :=
  ⟨by decide, summary_totals_consistent true [['a', 'b']] 3 c9Result (by decide)⟩

/-! ## Helper lemmas for the concrete empty-page-tolerance instance

The spec instance `["A" * 2000, "", "B" * 100]` is too large for kernel
evaluation, so the loop is executed symbolically, one iteration at a time. -/

theorem dropWhile_replicate_off {a : Char} (h : pyIsSpace a = false) (n : Nat) :
    List.dropWhile pyIsSpace (List.replicate n a) = List.replicate n a := by
  induction n with
  | zero => rfl
  | succ m ih => simp [List.replicate_succ, List.dropWhile_cons, h]

theorem pyStrip_replicate {a : Char} (h : pyIsSpace a = false) (n : Nat) :
    pyStrip (List.replicate n a) = List.replicate n a := by
  unfold pyStrip
  rw [dropWhile_replicate_off h, List.reverse_replicate, dropWhile_replicate_off h,
    List.reverse_replicate]

theorem subFindPositions_all_ne {c : Char} {pt l : Str} (h : ∀ x ∈ l, x ≠ c) :
    ∀ i, subFindPositions (c :: pt) l i = [] := by
  induction l with
  | nil => intro i; rfl
  | cons d t ih =>
    intro i
    have hd : (c == d) = false := by
      have := h d (List.mem_cons_self ..)
      simp [beq_eq_false_iff_ne]
      exact fun hc => this hc.symm
    have hpre : (c :: pt).isPrefixOf (d :: t) = false := by
      simp [List.isPrefixOf, hd]
    rw [subFindPositions, hpre]
    simp only [Bool.false_eq_true, if_false, List.nil_append]
    exact ih (fun x hx => h x (List.mem_cons_of_mem _ hx)) (i + 1)

theorem pyRfind_none {s pat : Str} {a b : Nat} {c : Char} {pt : Str}
    (hp : pat = c :: pt) (h : ∀ x ∈ (s.drop a).take (b - a), x ≠ c) :
    pyRfind s pat a b = none := by
  unfold pyRfind
  rw [hp, subFindPositions_all_ne h]
  rfl

theorem chunkLoop_step {cfg : ChunkerConfig} {text : Str} (hmax : 0 < cfg.maxChunkSize)
    {pos fuel : Nat} (hpos : pos < text.length) (hfuel : text.length - pos ≤ fuel) :
    chunkLoop cfg text fuel pos =
      if pyStrip (sliceStr text pos (chunkEndAt cfg text pos)) = []
      then chunkLoop cfg text (text.length - nextPosition cfg text pos)
             (nextPosition cfg text pos)
      else pyStrip (sliceStr text pos (chunkEndAt cfg text pos)) ::
           chunkLoop cfg text (text.length - nextPosition cfg text pos)
             (nextPosition cfg text pos) := by
  have h1 : chunkLoop cfg text fuel pos = chunkLoop cfg text (text.length - pos) pos :=
    chunkLoop_stable hmax fuel _ pos hfuel (le_refl _)
  have h2 : text.length - pos = (text.length - pos - 1) + 1 := by omega
  have h3 : chunkLoop cfg text (text.length - pos - 1) (nextPosition cfg text pos)
      = chunkLoop cfg text (text.length - nextPosition cfg text pos)
          (nextPosition cfg text pos) := by
    have hlt := lt_nextPosition hpos hmax
    exact chunkLoop_stable hmax _ _ _ (by omega) (le_refl _)
  rw [h1, h2]
  simp only [chunkLoop, if_pos hpos]
  rw [h3]

theorem chunkLoop_done {cfg : ChunkerConfig} {text : Str} {fuel pos : Nat}
    (h : ¬ pos < text.length) : chunkLoop cfg text fuel pos = [] := by
  cases fuel with
  | zero => rfl
  | succ n => simp [chunkLoop, h]

theorem c3_marker1_len : (pageBreakMarker 1).length = 26 := rfl

theorem c3_marker2_len : (pageBreakMarker 2).length = 26 := rfl

theorem c3_combined_eq : combinedText c3Pages = c3Combined := by
  rw [c3Pages, combinedText, combineParts, combineParts, combineParts, combineParts,
    if_neg (show ¬ (0 : Nat) < 0 by omega), if_pos (show (0 : Nat) < 1 by omega),
    if_pos (show (0 : Nat) < 2 by omega), List.nil_append, List.flatten_cons,
    List.singleton_append, List.flatten_cons, List.flatten_cons,
    List.singleton_append, List.flatten_cons, List.flatten_cons, List.flatten_nil,
    List.nil_append, List.append_nil, c3Combined]

theorem c3_len : c3Combined.length = 2152 := by
  rw [c3Combined, List.length_append, List.length_append, List.length_append,
    List.length_replicate, List.length_replicate, c3_marker1_len, c3_marker2_len]

theorem slice_replicate_pre {a : Char} (T : Str) (N p m : Nat) (h : p + m ≤ N) :
    sliceStr (List.replicate N a ++ T) p (p + m) = List.replicate m a := by
  unfold sliceStr
  rw [List.drop_append_eq_append_drop, List.drop_replicate, List.length_replicate,
    Nat.sub_eq_zero_of_le (show p ≤ N by omega), List.drop_zero,
    List.take_append_eq_append_take, List.take_replicate, List.length_replicate,
    show p + m - p = m by omega, Nat.min_eq_left (by omega),
    Nat.sub_eq_zero_of_le (by omega), List.take_zero, List.append_nil]

theorem sliceStr_to_end (l : Str) (p : Nat) : sliceStr l p l.length = l.drop p := by
  unfold sliceStr
  apply List.take_of_length_le
  rw [List.length_drop]

theorem drop_replicate_pre {a : Char} (T : Str) (N p : Nat) (h : p ≤ N) :
    (List.replicate N a ++ T).drop p = List.replicate (N - p) a ++ T := by
  rw [List.drop_append_eq_append_drop, List.drop_replicate, List.length_replicate,
    Nat.sub_eq_zero_of_le h, List.drop_zero]

theorem drop_append_ge (l T : Str) (p : Nat) (h : l.length ≤ p) :
    (l ++ T).drop p = T.drop (p - l.length) := by
  rw [List.drop_append_eq_append_drop, List.drop_eq_nil_of_le h, List.nil_append]

theorem c3_slice1 : sliceStr c3Combined 0 1000 = List.replicate 1000 'A' := by
  rw [c3Combined, show (1000 : Nat) = 0 + 1000 by omega]
  exact slice_replicate_pre _ 2000 0 1000 (by omega)

theorem c3_slice2 : sliceStr c3Combined 900 1900 = List.replicate 1000 'A' := by
  rw [c3Combined, show (1900 : Nat) = 900 + 1000 by omega]
  exact slice_replicate_pre _ 2000 900 1000 (by omega)

theorem c3_slice3 : sliceStr c3Combined 1800 2152 = c3Chunk2 := by
  rw [show (2152 : Nat) = c3Combined.length from c3_len.symm, sliceStr_to_end,
    c3Combined, drop_replicate_pre _ 2000 1800 (by omega), c3Chunk2,
    show (2000 - 1800 : Nat) = 200 by omega]

theorem c3_slice4 : sliceStr c3Combined 2052 2152 = List.replicate 100 'B' := by
  rw [show (2152 : Nat) = c3Combined.length from c3_len.symm, sliceStr_to_end,
    c3Combined, drop_append_ge _ _ 2052 (by rw [List.length_replicate]; omega),
    List.length_replicate, show (2052 - 2000 : Nat) = 52 by omega,
    drop_append_ge _ _ 52 (by rw [c3_marker1_len]; omega), c3_marker1_len,
    show (52 - 26 : Nat) = 26 by omega,
    drop_append_ge _ _ 26 (by rw [c3_marker2_len]), c3_marker2_len,
    show (26 - 26 : Nat) = 0 by omega, List.drop_zero]

theorem c3_slice_chars1 (c : Char) (hc : c ≠ 'A') :
    ∀ x ∈ (c3Combined.drop 0).take (1000 - 0), x ≠ c := by
  rw [show (c3Combined.drop 0).take (1000 - 0) = sliceStr c3Combined 0 1000 from rfl,
    c3_slice1]
  intro x hx
  rw [List.eq_of_mem_replicate hx]
  exact fun h => hc h.symm

theorem c3_slice_chars2 (c : Char) (hc : c ≠ 'A') :
    ∀ x ∈ (c3Combined.drop 900).take (1900 - 900), x ≠ c := by
  rw [show (c3Combined.drop 900).take (1900 - 900) = sliceStr c3Combined 900 1900 from
    rfl, c3_slice2]
  intro x hx
  rw [List.eq_of_mem_replicate hx]
  exact fun h => hc h.symm

theorem c3_ce1 : chunkEndAt c3Cfg c3Combined 0 = 1000 := by
  simp only [chunkEndAt, c3Cfg, c3_len]
  rw [show min (0 + 1000) 2152 = 1000 by omega, if_pos (show (1000 : Nat) < 2152 by omega)]
  unfold adjustEnd
  rw [pyRfind_none (show parPat = '\n' :: ['\n'] from rfl) (c3_slice_chars1 _ (by decide)),
    pyRfind_none (show nlPat = '\n' :: [] from rfl) (c3_slice_chars1 _ (by decide)),
    pyRfind_none (show dotPat = '.' :: [' '] from rfl) (c3_slice_chars1 _ (by decide)),
    pyRfind_none (show spacePat = ' ' :: [] from rfl) (c3_slice_chars1 _ (by decide))]
  rfl

theorem c3_ce2 : chunkEndAt c3Cfg c3Combined 900 = 1900 := by
  simp only [chunkEndAt, c3Cfg, c3_len]
  rw [show min (900 + 1000) 2152 = 1900 by omega,
    if_pos (show (1900 : Nat) < 2152 by omega)]
  unfold adjustEnd
  rw [pyRfind_none (show parPat = '\n' :: ['\n'] from rfl) (c3_slice_chars2 _ (by decide)),
    pyRfind_none (show nlPat = '\n' :: [] from rfl) (c3_slice_chars2 _ (by decide)),
    pyRfind_none (show dotPat = '.' :: [' '] from rfl) (c3_slice_chars2 _ (by decide)),
    pyRfind_none (show spacePat = ' ' :: [] from rfl) (c3_slice_chars2 _ (by decide))]
  rfl

theorem c3_ce3 : chunkEndAt c3Cfg c3Combined 1800 = 2152 := by
  simp only [chunkEndAt, c3Cfg, c3_len]
  rw [show min (1800 + 1000) 2152 = 2152 by omega, if_neg (lt_irrefl 2152)]

theorem c3_ce4 : chunkEndAt c3Cfg c3Combined 2052 = 2152 := by
  simp only [chunkEndAt, c3Cfg, c3_len]
  rw [show min (2052 + 1000) 2152 = 2152 by omega, if_neg (lt_irrefl 2152)]

theorem c3_np1 : nextPosition c3Cfg c3Combined 0 = 900 := by
  unfold nextPosition
  rw [c3_ce1, show c3Cfg.overlapSize = 100 from rfl,
    if_pos (show 100 * 3 < 1000 - 0 by omega)]

theorem c3_np2 : nextPosition c3Cfg c3Combined 900 = 1800 := by
  unfold nextPosition
  rw [c3_ce2, show c3Cfg.overlapSize = 100 from rfl,
    if_pos (show 100 * 3 < 1900 - 900 by omega)]

theorem c3_np3 : nextPosition c3Cfg c3Combined 1800 = 2052 := by
  unfold nextPosition
  rw [c3_ce3, show c3Cfg.overlapSize = 100 from rfl,
    if_pos (show 100 * 3 < 2152 - 1800 by omega)]

theorem c3_np4 : nextPosition c3Cfg c3Combined 2052 = 2152 := by
  unfold nextPosition
  rw [c3_ce4, show c3Cfg.overlapSize = 100 from rfl,
    if_neg (show ¬ 100 * 3 < 2152 - 2052 by omega)]

theorem pyStrip_eq_self_of_ends {l : Str} {a b : Char} {t u : Str}
    (hfront : l = a :: t) (ha : pyIsSpace a = false)
    (hback : l.reverse = b :: u) (hb : pyIsSpace b = false) :
    pyStrip l = l := by
  unfold pyStrip
  rw [hfront, List.dropWhile_cons, ha]
  simp only [Bool.false_eq_true, if_false]
  rw [← hfront, hback, List.dropWhile_cons, hb]
  simp only [Bool.false_eq_true, if_false]
  rw [← hback, List.reverse_reverse]

set_option maxRecDepth 40000 in
theorem c3_strip_chunk2 : pyStrip c3Chunk2 = c3Chunk2 := by decide

set_option maxRecDepth 40000 in
theorem c3_chunk2_ne_nil : c3Chunk2 ≠ [] := by decide

theorem c3_replicate_ne_nil (n : Nat) (a : Char) (h : 0 < n) :
    List.replicate n a ≠ [] := by
  intro hh
  have := congrArg List.length hh
  rw [List.length_replicate] at this
  simp at this
  omega

theorem c3_chunks :
    chunkLoop c3Cfg c3Combined 2152 0 =
      [List.replicate 1000 'A', List.replicate 1000 'A', c3Chunk2,
       List.replicate 100 'B'] := by
  have hmax : 0 < c3Cfg.maxChunkSize := by rw [show c3Cfg.maxChunkSize = 1000 from rfl]; omega
  have hL : c3Combined.length = 2152 := c3_len
  rw [chunkLoop_step hmax (by rw [hL]; omega) (by rw [hL]),
    c3_ce1, c3_slice1, pyStrip_replicate (by decide),
    if_neg (c3_replicate_ne_nil 1000 'A' (by omega)), c3_np1, hL,
    show (2152 - 900 : Nat) = 1252 by omega]
  rw [chunkLoop_step hmax (by rw [hL]; omega) (by rw [hL]),
    c3_ce2, c3_slice2, pyStrip_replicate (by decide),
    if_neg (c3_replicate_ne_nil 1000 'A' (by omega)), c3_np2, hL,
    show (2152 - 1800 : Nat) = 352 by omega]
  rw [chunkLoop_step hmax (by rw [hL]; omega) (by rw [hL]),
    c3_ce3, c3_slice3, c3_strip_chunk2,
    if_neg c3_chunk2_ne_nil, c3_np3, hL,
    show (2152 - 2052 : Nat) = 100 by omega]
  rw [chunkLoop_step hmax (by rw [hL]; omega) (by rw [hL]),
    c3_ce4, c3_slice4, pyStrip_replicate (by decide),
    if_neg (c3_replicate_ne_nil 100 'B' (by omega)), c3_np4, hL,
    show (2152 - 2152 : Nat) = 0 by omega]
  rw [chunkLoop_done (by rw [hL]; omega)]

theorem markerPre_not_prefix_of_ne {a : Char} (h : ('-' == a) = false) (l : Str) :
    markerPre.isPrefixOf (a :: l) = false := by
  rw [show markerPre = '-' :: ("-- PAGE BREAK [").data from rfl]
  simp [List.isPrefixOf, h]

theorem matchMarkerAt_cons_ne {a : Char} (h : ('-' == a) = false) (l : Str) :
    matchMarkerAt (a :: l) = none := by
  unfold matchMarkerAt
  rw [markerPre_not_prefix_of_ne h]
  simp

theorem searchMarker_cons_skip {a : Char} (h : ('-' == a) = false) (l : Str) :
    searchMarker (a :: l) = searchMarker l := by
  rw [searchMarker, matchMarkerAt_cons_ne h]

theorem searchMarker_replicate_append {a : Char} (h : ('-' == a) = false) (n : Nat)
    (X : Str) : searchMarker (List.replicate n a ++ X) = searchMarker X := by
  induction n with
  | zero => rfl
  | succ m ih =>
    rw [List.replicate_succ, List.cons_append, searchMarker_cons_skip h, ih]

set_option maxRecDepth 40000 in
theorem c3_search_chunk2 : searchMarker c3Chunk2 = some 1 := by
  rw [c3Chunk2, searchMarker_replicate_append (by decide)]
  decide

theorem c3_search_repl1000 : searchMarker (List.replicate 1000 'A') = none := by
  rw [show List.replicate 1000 'A' = List.replicate 1000 'A' ++ [] by
    rw [List.append_nil], searchMarker_replicate_append (by decide)]
  rfl

theorem c3_search_repl100 : searchMarker (List.replicate 100 'B') = none := by
  rw [show List.replicate 100 'B' = List.replicate 100 'B' ++ [] by
    rw [List.append_nil], searchMarker_replicate_append (by decide)]
  rfl

theorem c3_page_list :
    pageIdxSpec 1 [List.replicate 1000 'A', List.replicate 1000 'A', c3Chunk2,
      List.replicate 100 'B'] = [1, 1, 2, 2] := by
  rw [pageIdxSpec, c3_search_repl1000, pageIdxSpec, c3_search_repl1000,
    pageIdxSpec, c3_search_chunk2, pageIdxSpec, c3_search_repl100, pageIdxSpec]

theorem chunk_text_split_map_page {cfg : ChunkerConfig} {pages : List Str}
    (hall : pages.all List.isEmpty = false)
    (hlt : cfg.maxChunkSize < (combinedText pages).length) :
    (chunk_text cfg pages).map (fun d => d.page_index) =
      pageIdxSpec 1 (chunkLoop cfg (combinedText pages) (combinedText pages).length 0) := by
  have hne : pages.isEmpty = false := by
    cases pages with
    | nil => simp at hall
    | cons p ps => rfl
  have hnle : ¬ (combinedText pages).length ≤ cfg.maxChunkSize := by omega
  simp only [chunk_text, hall, hne, Bool.or_self, Bool.false_eq_true, if_false,
    if_neg hnle]
  exact buildDictsGo_map_page

theorem c3_map_page :
    (chunk_text c3Cfg c3Pages).map (fun d => d.page_index) = [1, 1, 2, 2] := by
  rw [chunk_text_split_map_page (by rfl)
    (by rw [c3_combined_eq, c3_len]; show (1000 : Nat) < 2152; omega)]
  rw [c3_combined_eq, c3_len, c3_chunks, c3_page_list]

set_option maxRecDepth 40000 in
/-- C3 counterexample: when page content itself contains text matching the
page-break pattern, page_index values can decrease. For
`pages = ["--- PAGE BREAK [7] --- " + "x" * 40, "yy"]` with `max = 30`,
`overlap = 0`, the fake in-content marker sets the running page index to 8,
and the real marker `[1]` later drops it back to 2: the page_index sequence
is `[8, 8, 8, 2]`, which is not non-decreasing. -/
theorem page_index_monotone_cex :
    (chunk_text ⟨30, 0⟩ c3CexPages).map (fun d => d.page_index) = [8, 8, 8, 2] ∧
    ¬ List.Pairwise (· ≤ ·)
        ((chunk_text ⟨30, 0⟩ c3CexPages).map (fun d => d.page_index)) := by
  constructor <;> decide

/-- C3 amended: on the splitting path every chunk's `page_index` is at least 1,
and for the spec's concrete instance `["A" * 2000, "", "B" * 100]` with
`max_chunk_size = 1000`, `overlap_size = 100` the page_index sequence is
exactly `[1, 1, 2, 2]` — non-decreasing. (General non-decreasingness fails
when page content collides with the marker pattern; see the counterexample.) -/
theorem page_index_amended :
    (∀ (cfg : ChunkerConfig) (pages : List Str),
      cfg.maxChunkSize < (combinedText pages).length →
      ∀ d ∈ chunk_text cfg pages, 1 ≤ d.page_index) ∧
    ((chunk_text c3Cfg c3Pages).map (fun d => d.page_index) = [1, 1, 2, 2] ∧
     List.Pairwise (· ≤ ·) ((chunk_text c3Cfg c3Pages).map (fun d => d.page_index))) := by
  refine ⟨?_, c3_map_page, ?_⟩
  · intro cfg pages hlt d hd
    simp only [chunk_text] at hd
    split at hd
    · simp at hd
    · split at hd
      case isTrue hle => omega
      case isFalse => exact buildDictsGo_page_ge_one (le_refl 1) hd
  · rw [c3_map_page]
    decide

/-- Witness for C3 (amended) at the concrete spec instance. -/
theorem page_index_amended_witness :
    ((⟨1000, 100⟩ : ChunkerConfig).maxChunkSize < (combinedText c3Pages).length) ∧
    (∀ d ∈ chunk_text ⟨1000, 100⟩ c3Pages, 1 ≤ d.page_index) := by
  have hlt : (⟨1000, 100⟩ : ChunkerConfig).maxChunkSize <
      (combinedText c3Pages).length := by
    rw [c3_combined_eq, c3_len]
    show (1000 : Nat) < 2152
    omega
  exact ⟨hlt, fun d hd => page_index_amended.1 ⟨1000, 100⟩ c3Pages hlt d hd⟩
